import Mathlib

set_option maxRecDepth 40000

/-!
Verification of the localizer repository's bearing-estimation and
capture-session logic against its natural-language specification.

The bearing correlator lives in `process_capture` (src/localizer/capture.py,
lines 253-259); the signal aggregator and direction estimator live in
src/localizer/locate.py; the capture worker's startup-marker loop lives in
`CaptureThread.run` (src/localizer/capture.py, lines 409-444); the
coordinator's result collection lives in `capture` (lines 151-163).
Timestamps, signal values and bearings are Python floats in the source;
they are embedded as rationals.
-/

/-- The rotation-schedule record, as persisted in the session metadata row
(`test_csv_data` in capture.py): start bearing, sweep degrees, duration,
and the antenna worker's actual rotation start/stop instants. -/
structure RotationSchedule where
  start_bearing : ℚ
  sweep_degrees : ℚ
  duration_seconds : ℤ
  rotation_start_time : ℚ
  rotation_end_time : ℚ

/-- The per-packet bearing computation from `process_capture`
(src/localizer/capture.py lines 253-259):
`total_time = end - start`; `pdiff = ptime - start`; `if pdiff <= 0: pdiff = 0`;
`pprogress = pdiff / total_time`; `pbearing = pprogress * degrees + bearing`. -/
def estimateBearing (ptime : ℚ) (s : RotationSchedule) : ℚ :=
  let total_time := s.rotation_end_time - s.rotation_start_time
  let pdiff := ptime - s.rotation_start_time
  let pdiff2 := if pdiff ≤ 0 then 0 else pdiff
  let pprogress := pdiff2 / total_time
  pprogress * s.sweep_degrees + s.start_bearing

/-- The same computation with the division made fallible: Python raises
`ZeroDivisionError` on `pdiff / total_time` exactly when `total_time == 0`
(there is no guard in `process_capture`); otherwise it computes the same
value as `estimateBearing`. -/
def estimateBearingChecked (ptime : ℚ) (s : RotationSchedule) : Option ℚ :=
  let total_time := s.rotation_end_time - s.rotation_start_time
  if total_time = 0 then none
  else some (estimateBearing ptime s)

/-- A concrete schedule used by witnesses: start bearing 0, sweep 360,
duration 10, rotation from time 0 to time 10. -/
def schedA : RotationSchedule := ⟨0, 360, 10, 0, 10⟩

/-- A concrete degenerate schedule: sweep 0 degrees, rotation from 0 to 1. -/
def schedZeroSweep : RotationSchedule := ⟨0, 0, 1, 0, 1⟩

/-- C1 (amended): for a schedule with `rotation_end_time > rotation_start_time`,
`estimateBearing` equals `max 0 ((t - start) / (end - start)) * sweep + start_bearing`;
a packet at or before the rotation start yields exactly the start bearing; and a
packet after the rotation end yields a bearing strictly past
`start_bearing + sweep_degrees` provided `sweep_degrees > 0` (progress is not
ceiling-clamped at 1). -/
theorem c1_bearing_formula (s : RotationSchedule) (t : ℚ)
    (h : s.rotation_start_time < s.rotation_end_time) :
    estimateBearing t s =
      max 0 ((t - s.rotation_start_time) /
        (s.rotation_end_time - s.rotation_start_time)) * s.sweep_degrees
        + s.start_bearing
    ∧ (t ≤ s.rotation_start_time → estimateBearing t s = s.start_bearing)
    ∧ (s.rotation_end_time < t → 0 < s.sweep_degrees →
        s.start_bearing + s.sweep_degrees < estimateBearing t s) := by
  have hT : 0 < s.rotation_end_time - s.rotation_start_time := sub_pos.mpr h
  refine ⟨?_, ?_, ?_⟩
  · rcases le_or_lt (t - s.rotation_start_time) 0 with hle | hlt
    · have hdiv : (t - s.rotation_start_time) /
          (s.rotation_end_time - s.rotation_start_time) ≤ 0 :=
        div_nonpos_iff.mpr (Or.inr ⟨hle, hT.le⟩)
      simp only [estimateBearing, if_pos hle]
      rw [max_eq_left hdiv, zero_div]
    · have hdiv : 0 ≤ (t - s.rotation_start_time) /
          (s.rotation_end_time - s.rotation_start_time) :=
        (div_pos hlt hT).le
      simp only [estimateBearing, if_neg (not_le.mpr hlt)]
      rw [max_eq_right hdiv]
  · intro hle
    have hle2 : t - s.rotation_start_time ≤ 0 := by linarith
    simp only [estimateBearing, if_pos hle2]
    rw [zero_div, zero_mul, zero_add]
  · intro hlate hsw
    have hgt : s.rotation_end_time - s.rotation_start_time
        < t - s.rotation_start_time := by linarith
    have hpos : ¬ (t - s.rotation_start_time ≤ 0) := by
      push_neg
      linarith
    have hprog : 1 < (t - s.rotation_start_time) /
        (s.rotation_end_time - s.rotation_start_time) :=
      (one_lt_div hT).mpr hgt
    simp only [estimateBearing, if_neg hpos]
    have : s.sweep_degrees <
        (t - s.rotation_start_time) /
          (s.rotation_end_time - s.rotation_start_time) * s.sweep_degrees :=
      (lt_mul_iff_one_lt_left hsw).mpr hprog
    linarith

/-- C1 counterexample to the claim as frozen: with `sweep_degrees = 0`
(schedules with `sweep_degrees ≥ 0` and `rotation_end_time > rotation_start_time`
are admissible), a packet at time 2, strictly after the rotation end 1, yields
bearing 0, which equals `start_bearing + sweep_degrees` and is not extrapolated
strictly past it. -/
theorem c1_cex :
    schedZeroSweep.rotation_start_time < schedZeroSweep.rotation_end_time
    ∧ schedZeroSweep.rotation_end_time < 2
    ∧ (0:ℚ) ≤ schedZeroSweep.sweep_degrees
    ∧ estimateBearing 2 schedZeroSweep
        = schedZeroSweep.start_bearing + schedZeroSweep.sweep_degrees
    ∧ ¬ (schedZeroSweep.start_bearing + schedZeroSweep.sweep_degrees
          < estimateBearing 2 schedZeroSweep) := by
  refine ⟨by norm_num [schedZeroSweep], by norm_num [schedZeroSweep],
    by norm_num [schedZeroSweep], ?_, ?_⟩ <;>
    norm_num [schedZeroSweep, estimateBearing]

/-- Witness for C1: the amended theorem applied to the concrete schedule
`schedA` (sweep 360 over times 0..10) and packet time 5. -/
theorem c1_witness :
    estimateBearing 5 schedA =
      max 0 ((5 - schedA.rotation_start_time) /
        (schedA.rotation_end_time - schedA.rotation_start_time)) * schedA.sweep_degrees
        + schedA.start_bearing
    ∧ (5 ≤ schedA.rotation_start_time → estimateBearing 5 schedA = schedA.start_bearing)
    ∧ (schedA.rotation_end_time < 5 → 0 < schedA.sweep_degrees →
        schedA.start_bearing + schedA.sweep_degrees < estimateBearing 5 schedA) :=
  c1_bearing_formula schedA 5 (by norm_num [schedA])

/-- C8: with `rotation_end_time > rotation_start_time` and
`sweep_degrees ≥ 0`, `estimateBearing` is monotone non-decreasing in the
packet time. -/
theorem c8_monotone (s : RotationSchedule) (t1 t2 : ℚ)
    (hT : s.rotation_start_time < s.rotation_end_time)
    (hsw : 0 ≤ s.sweep_degrees) (h12 : t1 ≤ t2) :
    estimateBearing t1 s ≤ estimateBearing t2 s := by
  have hTpos : 0 < s.rotation_end_time - s.rotation_start_time := sub_pos.mpr hT
  have hclamp : (if t1 - s.rotation_start_time ≤ 0 then 0 else t1 - s.rotation_start_time)
      ≤ (if t2 - s.rotation_start_time ≤ 0 then 0 else t2 - s.rotation_start_time) := by
    split_ifs <;> linarith
  have hdiv := div_le_div_of_nonneg_right hclamp hTpos.le
  simp only [estimateBearing]
  have hmul := mul_le_mul_of_nonneg_right hdiv hsw
  linarith

/-- Witness for C8: monotonicity applied to `schedA` at times 1 and 2. -/
theorem c8_witness : estimateBearing 1 schedA ≤ estimateBearing 2 schedA :=
  c8_monotone schedA 1 2 (by norm_num [schedA]) (by norm_num [schedA]) (by norm_num)

/-- C10: the per-packet bearing computation divides by
`rotation_end_time - rotation_start_time` with no guard: it is well defined
(returns a value rather than raising) exactly when the two instants differ,
and under the schedule invariant `rotation_end_time > rotation_start_time`
the division-by-zero branch is unreachable and the checked computation agrees
with `estimateBearing`. -/
theorem c10_division_guard (t : ℚ) (s : RotationSchedule) :
    ((estimateBearingChecked t s).isSome
      ↔ s.rotation_end_time ≠ s.rotation_start_time)
    ∧ (s.rotation_start_time < s.rotation_end_time →
        estimateBearingChecked t s = some (estimateBearing t s)) := by
  constructor
  · simp only [estimateBearingChecked]
    split_ifs with h0
    · simp only [Option.isSome_none, Bool.false_eq_true, false_iff, ne_eq, not_not]
      exact sub_eq_zero.mp h0
    · simp only [Option.isSome_some, true_iff, ne_eq]
      exact fun hc => h0 (sub_eq_zero.mpr hc)
  · intro h
    have : s.rotation_end_time - s.rotation_start_time ≠ 0 :=
      sub_ne_zero.mpr (ne_of_gt h)
    simp [estimateBearingChecked, this]

/-- Witness for C10: the guard theorem applied to `schedA` and packet time 3. -/
theorem c10_witness :
    (estimateBearingChecked 3 schedA).isSome
    ∧ estimateBearingChecked 3 schedA = some (estimateBearing 3 schedA) :=
  ⟨(c10_division_guard 3 schedA).1.mpr (by norm_num [schedA]),
    (c10_division_guard 3 schedA).2 (by norm_num [schedA])⟩

/-- Round-half-to-even on rationals, the rounding `np.round` applies to the
`deg` column in `prep_for_interpolation` (src/localizer/locate.py line 25).
With `f = ⌊q⌋` the fractional part of `q` is `r / q.den` where
`r = q.num - f * q.den` and `0 ≤ r < q.den`, so `frac < 1/2` iff
`2r < q.den` and `frac > 1/2` iff `q.den < 2r`; the exact half goes to the
even neighbour. Stated on `r` to keep the definition kernel-evaluable. -/
def roundHalfEven (q : ℚ) : ℤ :=
  let f := q.floor
  let r := q.num - f * (q.den : ℤ)
  if 2 * r < (q.den : ℤ) then f
  else if (q.den : ℤ) < 2 * r then f + 1
  else if f % 2 = 0 then f else f + 1

/-- Fold step keeping the larger of a new value and an optional accumulator. -/
def optMax (x : ℚ) : Option ℚ → Option ℚ
  | none => some x
  | some y => some (max x y)

/-- Maximum of a list of rationals, `none` on the empty list. -/
def maxOfList (l : List ℚ) : Option ℚ := l.foldr optMax none

/-- The linear signal values (`mw` column) of the samples whose bearing rounds
to degree `d`. -/
def degSignals (samples : List (ℚ × ℚ)) (d : ℤ) : List ℚ :=
  (samples.filter fun p => roundHalfEven p.1 == d).map Prod.snd

/-- The aggregated per-degree value of `prep_for_interpolation`
(src/localizer/locate.py lines 24-28): group the samples by rounded degree
and keep the row with the maximum `mw` (its `mw` value is the group max). -/
def aggValue (samples : List (ℚ × ℚ)) (d : ℤ) : Option ℚ :=
  maxOfList (degSignals samples d)

/-- The dense series built by `reindex(np.arange(0, 360))`
(src/localizer/locate.py line 30): degrees 0..359, unsampled degrees absent. -/
def seriesMid (samples : List (ℚ × ℚ)) (d : ℤ) : Option ℚ :=
  if 0 ≤ d ∧ d < 360 then aggValue samples d else none

/-- The series returned by `prep_for_interpolation`
(src/localizer/locate.py lines 32-43): when the sweep covers at least 360
degrees, the 0..359 series is copied to index offsets -360 and +360 and
concatenated; otherwise the 0..359 series is returned unchanged. -/
def prepForInterpolation (samples : List (ℚ × ℚ)) (sweep : ℚ) (d : ℤ) : Option ℚ :=
  if 360 ≤ sweep then
    if -360 ≤ d ∧ d < 0 then seriesMid samples (d + 360)
    else if 0 ≤ d ∧ d < 360 then seriesMid samples d
    else if 360 ≤ d ∧ d < 720 then seriesMid samples (d - 360)
    else none
  else seriesMid samples d

theorem maxOfList_eq_nil {l : List ℚ} (h : maxOfList l = none) : l = [] := by
  cases l with
  | nil => rfl
  | cons a l =>
      simp only [maxOfList, List.foldr_cons] at h
      cases hm : l.foldr optMax none <;> rw [hm] at h <;> simp [optMax] at h

theorem maxOfList_cons_isSome (a : ℚ) (l : List ℚ) :
    (maxOfList (a :: l)).isSome = true := by
  simp only [maxOfList, List.foldr_cons]
  cases l.foldr optMax none <;> simp [optMax]

theorem maxOfList_spec {l : List ℚ} {v : ℚ} (h : maxOfList l = some v) :
    v ∈ l ∧ ∀ x ∈ l, x ≤ v := by
  induction l generalizing v with
  | nil => simp [maxOfList] at h
  | cons a l ih =>
      simp only [maxOfList, List.foldr_cons] at h
      cases hm : l.foldr optMax none with
      | none =>
          rw [hm] at h
          simp only [optMax, Option.some.injEq] at h
          subst h
          have hl : l = [] := maxOfList_eq_nil hm
          subst hl
          exact ⟨List.mem_singleton.mpr rfl, by simp⟩
      | some y =>
          rw [hm] at h
          simp only [optMax, Option.some.injEq] at h
          obtain ⟨hy, hley⟩ := ih (show maxOfList l = some y from hm)
          subst h
          refine ⟨?_, ?_⟩
          · rcases max_choice a y with hc | hc
            · rw [hc]; exact List.mem_cons_self a l
            · rw [hc]; exact List.mem_cons_of_mem a hy
          · intro x hx
            rcases List.mem_cons.mp hx with rfl | hx
            · exact le_max_left _ _
            · exact le_trans (hley x hx) (le_max_right _ _)

theorem maxOfList_perm {l1 l2 : List ℚ} (h : l1.Perm l2) :
    maxOfList l1 = maxOfList l2 := by
  induction h with
  | nil => rfl
  | cons x h ih =>
      simp only [maxOfList, List.foldr_cons] at ih ⊢
      rw [ih]
  | swap x y l =>
      simp only [maxOfList, List.foldr_cons]
      cases l.foldr optMax none with
      | none => simp [optMax, max_comm]
      | some z => simp [optMax, max_left_comm]
  | trans h1 h2 ih1 ih2 => exact ih1.trans ih2

/-- C3: the aggregation of `prep_for_interpolation` is peak hold — a degree
has a value exactly when some sample rounds to it, that value is the maximum
linear (`mw`) value among the samples rounding to the degree, and the
per-degree result is invariant under any permutation of the input samples. -/
theorem c3_peak_hold (samples : List (ℚ × ℚ)) (d : ℤ) :
    ((aggValue samples d).isSome ↔ ∃ p ∈ samples, roundHalfEven p.1 = d)
    ∧ (∀ v, aggValue samples d = some v →
        (∃ p ∈ samples, roundHalfEven p.1 = d ∧ p.2 = v)
        ∧ ∀ p ∈ samples, roundHalfEven p.1 = d → p.2 ≤ v)
    ∧ ∀ samples2 : List (ℚ × ℚ), samples.Perm samples2 →
        aggValue samples d = aggValue samples2 d := by
  refine ⟨⟨?_, ?_⟩, ?_, ?_⟩
  · intro hs
    obtain ⟨v, hv⟩ := Option.isSome_iff_exists.mp hs
    obtain ⟨hmem, -⟩ := maxOfList_spec hv
    obtain ⟨p, hp, rfl⟩ := List.mem_map.mp hmem
    obtain ⟨hps, hpd⟩ := List.mem_filter.mp hp
    exact ⟨p, hps, by simpa using hpd⟩
  · rintro ⟨p, hp, hd⟩
    have hmem : p.2 ∈ degSignals samples d :=
      List.mem_map.mpr ⟨p, List.mem_filter.mpr ⟨hp, by simp [hd]⟩, rfl⟩
    cases hds : degSignals samples d with
    | nil => rw [hds] at hmem; simp at hmem
    | cons a l =>
        show (maxOfList (degSignals samples d)).isSome = true
        rw [hds]
        exact maxOfList_cons_isSome a l
  · intro v hv
    obtain ⟨hmem, hle⟩ := maxOfList_spec hv
    constructor
    · obtain ⟨p, hp, hpv⟩ := List.mem_map.mp hmem
      obtain ⟨hps, hpd⟩ := List.mem_filter.mp hp
      exact ⟨p, hps, by simpa using hpd, hpv⟩
    · intro p hp hd
      exact hle p.2 (List.mem_map.mpr ⟨p, List.mem_filter.mpr ⟨hp, by simp [hd]⟩, rfl⟩)
  · intro samples2 hperm
    exact maxOfList_perm ((hperm.filter _).map _)

/-- Witness for C3: two samples at degree 10, in both input orders, aggregate
to the same value. -/
theorem c3_witness :
    aggValue [((10:ℚ), (2:ℚ)), ((10:ℚ), (5:ℚ))] 10
      = aggValue [((10:ℚ), (5:ℚ)), ((10:ℚ), (2:ℚ))] 10 :=
  (c3_peak_hold [((10:ℚ), (2:ℚ)), ((10:ℚ), (5:ℚ))] 10).2.2
    [((10:ℚ), (5:ℚ)), ((10:ℚ), (2:ℚ))]
    (List.Perm.swap ((10:ℚ), (5:ℚ)) ((10:ℚ), (2:ℚ)) [])

/-- C4: when the sweep covers at least 360 degrees, the circularly extended
series agrees at `d`, `d + 360` and `d - 360` for every degree `d` in 0..359,
before any interpolation is applied. -/
theorem c4_circular_extension (samples : List (ℚ × ℚ)) (sweep : ℚ) (d : ℤ)
    (hsw : 360 ≤ sweep) (h0 : 0 ≤ d) (h1 : d < 360) :
    prepForInterpolation samples sweep (d + 360) = prepForInterpolation samples sweep d
    ∧ prepForInterpolation samples sweep (d - 360) = prepForInterpolation samples sweep d := by
  simp only [prepForInterpolation, if_pos hsw]
  constructor
  · rw [if_neg (by omega), if_neg (by omega), if_pos (show 360 ≤ d + 360 ∧ d + 360 < 720 by omega)]
    rw [if_neg (by omega), if_pos ⟨h0, h1⟩]
    have e : d + 360 - 360 = d := by omega
    rw [e]
  · rw [if_pos (show -360 ≤ d - 360 ∧ d - 360 < 0 by omega)]
    rw [if_neg (by omega), if_pos ⟨h0, h1⟩]
    have e : d - 360 + 360 = d := by omega
    rw [e]

/-- Witness for C4: one sample at degree 5, sweep 360; the extended series
agrees at 5, 365 and -355. -/
theorem c4_witness :
    prepForInterpolation [((5:ℚ), (1:ℚ))] 360 (5 + 360)
      = prepForInterpolation [((5:ℚ), (1:ℚ))] 360 5
    ∧ prepForInterpolation [((5:ℚ), (1:ℚ))] 360 (5 - 360)
      = prepForInterpolation [((5:ℚ), (1:ℚ))] 360 5 :=
  c4_circular_extension [((5:ℚ), (1:ℚ))] 360 5 (by norm_num) (by norm_num) (by norm_num)

/-- The interpolation-method names used in `interpolate` and `_error_methods`
(src/localizer/locate.py). -/
inductive Method
  | naive
  | slinear
  | linear
  | pchip
  deriving DecidableEq

/-- The method dispatch of `interpolate` (src/localizer/locate.py lines 54-59),
with Python chained comparisons expanded:
`if 0 > len(series) <= 1` is `0 > len ∧ len ≤ 1`;
`elif 1 > len(series) <= 2` is `1 > len ∧ len ≤ 2`; `else` picks pchip. -/
def selectMethod (series : List (ℚ × ℚ)) : Method :=
  if 0 > series.length ∧ series.length ≤ 1 then Method.slinear
  else if 1 > series.length ∧ series.length ≤ 2 then Method.naive
  else Method.pchip

/-- The integer degrees 0..359 (`np.arange(0, 360)`). -/
def range360 : List ℤ := (List.range 360).map fun (n : ℕ) => (n : ℤ)

/-- The index -360..719 of the circularly extended series. -/
def bigDomain : List ℤ := (List.range 1080).map fun (n : ℕ) => (n : ℤ) - 360

/-- The index of the series returned by `prep_for_interpolation`. -/
def interpolationDomain (sweep : ℚ) : List ℤ :=
  if 360 ≤ sweep then bigDomain else range360

/-- Number of degrees in 0..359 holding a value after rounding and
deduplication (non-missing entries of the reindexed series). -/
def usableCount (samples : List (ℚ × ℚ)) : ℕ :=
  (range360.filter fun d => (seriesMid samples d).isSome).length

/-- Number of non-missing entries of the series actually handed to the
interpolation routine (after circular extension when `sweep ≥ 360`). -/
def validCount (samples : List (ℚ × ℚ)) (sweep : ℚ) : ℕ :=
  ((interpolationDomain sweep).filter
    fun d => (prepForInterpolation samples sweep d).isSome).length

/-- Modelled from the external interpolation libraries' documented contracts
(the failure is raised inside pandas/scipy, not in src, which has no
`InsufficientDataError`): the scipy interpolators behind
`Series.interpolate` require at least two valid data points in the series
they receive and raise otherwise, and `idxmax` on a series with no valid
value raises. `interpolate` (src/localizer/locate.py lines 46-62) picks the
locate function from the raw sample count and hands it the series built by
`prep_for_interpolation`; the naive path takes `idxmax` over degrees 0..359. -/
def estimateFails (samples : List (ℚ × ℚ)) (sweep : ℚ) : Bool :=
  match selectMethod samples with
  | Method.naive => usableCount samples == 0
  | _ => decide (validCount samples sweep < 2)

/-- C5 evaluation at the failing inputs: the chained-comparison guards of
`interpolate` are degenerate, so an empty series selects the naive method and
every series with 1, 2 or 3 samples selects pchip — never the slinear/linear
fits the claim requires for 1 or 2 samples. -/
theorem c5_dispatch_eval :
    selectMethod ([] : List (ℚ × ℚ)) = Method.naive
    ∧ selectMethod [((10:ℚ), (1:ℚ))] = Method.pchip
    ∧ selectMethod [((10:ℚ), (1:ℚ)), ((20:ℚ), (1:ℚ))] = Method.pchip
    ∧ selectMethod [((10:ℚ), (1:ℚ)), ((20:ℚ), (1:ℚ)), ((30:ℚ), (1:ℚ))] = Method.pchip := by
  refine ⟨by decide, by decide, by decide, by decide⟩

theorem selectMethod_eq_pchip {samples : List (ℚ × ℚ)} (h : samples ≠ []) :
    selectMethod samples = Method.pchip := by
  have hlen : 0 < samples.length := List.length_pos.mpr h
  unfold selectMethod
  rw [if_neg (by omega), if_neg (by omega)]

theorem estimateFails_pchip {samples : List (ℚ × ℚ)} {sweep : ℚ}
    (h : selectMethod samples = Method.pchip) :
    estimateFails samples sweep = decide (validCount samples sweep < 2) := by
  unfold estimateFails
  rw [h]

theorem mem_range360 {k : ℤ} : k ∈ range360 ↔ 0 ≤ k ∧ k < 360 := by
  constructor
  · intro h
    obtain ⟨n, hn, rfl⟩ := List.mem_map.mp h
    rw [List.mem_range] at hn
    omega
  · intro hk
    refine List.mem_map.mpr ⟨k.toNat, ?_, ?_⟩
    · rw [List.mem_range]
      omega
    · show ((k.toNat : ℕ) : ℤ) = k
      omega

theorem seriesMid_none_of_usable_zero {samples : List (ℚ × ℚ)}
    (h : usableCount samples = 0) (d : ℤ) :
    (seriesMid samples d).isSome = false := by
  by_cases hd : 0 ≤ d ∧ d < 360
  · have hmem : d ∈ range360 := mem_range360.mpr hd
    have hfil := List.length_eq_zero.mp h
    have hnone := List.filter_eq_nil_iff.mp hfil d hmem
    simpa using hnone
  · unfold seriesMid
    rw [if_neg hd]
    rfl

theorem prep_none_of_usable_zero {samples : List (ℚ × ℚ)}
    (h : usableCount samples = 0) (sweep : ℚ) (d : ℤ) :
    (prepForInterpolation samples sweep d).isSome = false := by
  unfold prepForInterpolation
  split_ifs <;> first
    | exact seriesMid_none_of_usable_zero h _
    | rfl

/-- C6 (amended): on a series with fewer than 2 usable points after rounding
and deduplication, estimation fails — provided the sweep is below 360 degrees
or the series is empty of usable points. (With `sweep ≥ 360` and exactly one
usable point, the circular extension supplies three valid copies and the
pchip fit succeeds; see the counterexample.) -/
theorem c6_insufficient_data (samples : List (ℚ × ℚ)) (sweep : ℚ)
    (h1 : usableCount samples < 2)
    (h2 : sweep < 360 ∨ usableCount samples = 0) :
    estimateFails samples sweep = true := by
  cases samples with
  | nil =>
      unfold estimateFails
      rw [show selectMethod ([] : List (ℚ × ℚ)) = Method.naive by decide]
      rw [show usableCount ([] : List (ℚ × ℚ)) = 0 by decide]
      rfl
  | cons a l =>
      rw [estimateFails_pchip (selectMethod_eq_pchip (List.cons_ne_nil a l)),
        decide_eq_true_eq]
      rcases h2 with h2 | h2
      · have hsw : ¬ (360 ≤ sweep) := not_le.mpr h2
        have hdom : interpolationDomain sweep = range360 := by
          unfold interpolationDomain
          rw [if_neg hsw]
        have hprep : ∀ d : ℤ,
            prepForInterpolation (a :: l) sweep d = seriesMid (a :: l) d := by
          intro d
          unfold prepForInterpolation
          rw [if_neg hsw]
        unfold validCount
        rw [hdom]
        simp only [hprep]
        unfold usableCount at h1
        exact h1
      · unfold validCount
        rw [List.filter_eq_nil_iff.mpr
          (fun d _ => by simp [prep_none_of_usable_zero h2 sweep d])]
        simp

/-- C6 counterexample to the claim as frozen: a single sample at degree 10
(one usable point, fewer than 2) with `sweep_degrees = 360` does not fail:
the circular extension gives the pchip interpolator three valid points, so a
bearing guess is produced instead of an insufficient-data failure. -/
theorem c6_cex :
    usableCount [((10:ℚ), (5:ℚ))] = 1
    ∧ usableCount [((10:ℚ), (5:ℚ))] < 2
    ∧ (360:ℚ) ≤ 360
    ∧ validCount [((10:ℚ), (5:ℚ))] 360 = 3
    ∧ estimateFails [((10:ℚ), (5:ℚ))] 360 = false := by
  refine ⟨by decide, by decide, by norm_num, by decide, by decide⟩

/-- Witness for C6: a single usable point with a sweep below 360 degrees
does make estimation fail. -/
theorem c6_witness : estimateFails [((10:ℚ), (5:ℚ))] 0 = true :=
  c6_insufficient_data [((10:ℚ), (5:ℚ))] 0 (by decide) (Or.inl (by norm_num))

/-- One step of the pandas `idxmax` scan: skip missing values, keep the first
index attaining the running maximum (strict `<` keeps the earlier index on
ties, as `idxmax` returns the first occurrence). -/
def idxmaxStep (f : ℤ → Option ℚ) (acc : Option (ℤ × ℚ)) (i : ℤ) : Option (ℤ × ℚ) :=
  match f i with
  | none => acc
  | some v =>
      match acc with
      | none => some (i, v)
      | some (b, bv) => if bv < v then some (i, v) else some (b, bv)

/-- `Series.idxmax` over the given index: the first index with the maximum
non-missing value, `none` when every value is missing (pandas raises there). -/
def idxmax (f : ℤ → Option ℚ) (idx : List ℤ) : Option ℤ :=
  (idx.foldl (idxmaxStep f) none).map Prod.fst

/-- `locate_naive` (src/localizer/locate.py lines 5-9): a series longer than
360 entries is restricted to `np.arange(0, 360)` before `idxmax`. -/
def locate_naive (f : ℤ → Option ℚ) (dom : List ℤ) : Option ℤ :=
  if dom.length > 360 then idxmax f range360 else idxmax f dom

/-- `locate_interpolate` (src/localizer/locate.py lines 12-15): the
interpolated series (`fit`, produced by the external interpolator) is
restricted to `np.arange(0, 360)` and `idxmax` is taken there. -/
def locate_interpolate (fit : ℤ → Option ℚ) : Option ℤ := idxmax fit range360

/-- The curve each locate path scans: the externally fitted series for the
interpolating methods, the prepared (unfitted) series for the naive path. -/
def curveOf (samples : List (ℚ × ℚ)) (sweep : ℚ) (fit : ℤ → Option ℚ) :
    ℤ → Option ℚ :=
  match selectMethod samples with
  | Method.naive => prepForInterpolation samples sweep
  | _ => fit

/-- The guess/method pair returned by `interpolate`
(src/localizer/locate.py lines 46-62), with the external interpolator's
output abstracted as `fit`. -/
def interpolateModel (samples : List (ℚ × ℚ)) (sweep : ℚ) (fit : ℤ → Option ℚ) :
    Option ℤ × Method :=
  match selectMethod samples with
  | Method.naive =>
      (locate_naive (prepForInterpolation samples sweep) (interpolationDomain sweep),
        Method.naive)
  | m => (locate_interpolate fit, m)

theorem range360_length : range360.length = 360 := by
  simp [range360]

theorem bigDomain_length : bigDomain.length = 1080 := by
  simp [bigDomain]

theorem idxmaxStep_cases {f : ℤ → Option ℚ} {acc : Option (ℤ × ℚ)} {i g : ℤ}
    {gv : ℚ} (h : idxmaxStep f acc i = some (g, gv)) :
    acc = some (g, gv) ∨ (g = i ∧ f i = some gv) := by
  cases acc with
  | none =>
      cases hfi : f i with
      | none =>
          simp only [idxmaxStep, hfi] at h
          exact Or.inl h
      | some v =>
          simp only [idxmaxStep, hfi, Option.some.injEq, Prod.mk.injEq] at h
          exact Or.inr ⟨h.1.symm, congrArg some h.2⟩
  | some p =>
      obtain ⟨b, bv⟩ := p
      cases hfi : f i with
      | none =>
          simp only [idxmaxStep, hfi] at h
          exact Or.inl h
      | some v =>
          simp only [idxmaxStep, hfi] at h
          split_ifs at h with hlt
          · simp only [Option.some.injEq, Prod.mk.injEq] at h
            exact Or.inr ⟨h.1.symm, congrArg some h.2⟩
          · exact Or.inl h

theorem idxmaxStep_ge_new {f : ℤ → Option ℚ} (acc : Option (ℤ × ℚ)) {i : ℤ}
    {v : ℚ} (hfi : f i = some v) :
    ∃ c cv, idxmaxStep f acc i = some (c, cv) ∧ v ≤ cv
      ∧ ∀ b bv, acc = some (b, bv) → bv ≤ cv := by
  cases acc with
  | none =>
      refine ⟨i, v, ?_, le_refl v, by simp⟩
      simp only [idxmaxStep, hfi]
  | some p =>
      obtain ⟨b, bv⟩ := p
      by_cases hlt : bv < v
      · refine ⟨i, v, ?_, le_refl v, ?_⟩
        · simp only [idxmaxStep, hfi]
          rw [if_pos hlt]
        · intro b2 bv2 he
          simp only [Option.some.injEq, Prod.mk.injEq] at he
          exact le_trans (le_of_eq he.2.symm) hlt.le
      · refine ⟨b, bv, ?_, not_lt.mp hlt, ?_⟩
        · simp only [idxmaxStep, hfi]
          rw [if_neg hlt]
        · intro b2 bv2 he
          simp only [Option.some.injEq, Prod.mk.injEq] at he
          exact le_of_eq he.2.symm

theorem idxmaxFold_spec (f : ℤ → Option ℚ) :
    ∀ (idx : List ℤ) (acc : Option (ℤ × ℚ)) (g : ℤ) (gv : ℚ),
      idx.foldl (idxmaxStep f) acc = some (g, gv) →
      (acc = some (g, gv) ∨ (f g = some gv ∧ g ∈ idx))
      ∧ (∀ i ∈ idx, ∀ v, f i = some v → v ≤ gv)
      ∧ (∀ b bv, acc = some (b, bv) → bv ≤ gv) := by
  intro idx
  induction idx with
  | nil =>
      intro acc g gv h
      simp only [List.foldl_nil] at h
      refine ⟨Or.inl h, by simp, ?_⟩
      intro b bv hacc
      rw [hacc] at h
      simp only [Option.some.injEq, Prod.mk.injEq] at h
      exact le_of_eq h.2
  | cons i idx ih =>
      intro acc g gv h
      rw [List.foldl_cons] at h
      obtain ⟨hA, hB, hC⟩ := ih (idxmaxStep f acc i) g gv h
      refine ⟨?_, ?_, ?_⟩
      · rcases hA with hA | ⟨hfg, hmem⟩
        · rcases idxmaxStep_cases hA with hacc | ⟨hgi, hfi⟩
          · exact Or.inl hacc
          · refine Or.inr ?_
            rw [hgi]
            exact ⟨hfi, List.mem_cons_self i idx⟩
        · exact Or.inr ⟨hfg, List.mem_cons_of_mem i hmem⟩
      · intro j hj v hfv
        rcases List.mem_cons.mp hj with rfl | hj2
        · obtain ⟨c, cv, hstep, hvcv, -⟩ := idxmaxStep_ge_new acc hfv
          exact le_trans hvcv (hC c cv hstep)
        · exact hB j hj2 v hfv
      · intro b bv hacc
        cases hfi : f i with
        | none =>
            refine hC b bv ?_
            simp only [idxmaxStep, hfi]
            exact hacc
        | some v =>
            obtain ⟨c, cv, hstep, -, hold⟩ := idxmaxStep_ge_new acc hfi
            exact le_trans (hold b bv hacc) (hC c cv hstep)

theorem idxmax_spec {f : ℤ → Option ℚ} {idx : List ℤ} {g : ℤ}
    (h : idxmax f idx = some g) :
    g ∈ idx ∧ ∃ gv, f g = some gv ∧ ∀ i ∈ idx, ∀ v, f i = some v → v ≤ gv := by
  unfold idxmax at h
  obtain ⟨⟨g2, gv⟩, hfold, hfst⟩ := Option.map_eq_some'.mp h
  obtain ⟨hA, hB, -⟩ := idxmaxFold_spec f idx none g2 gv hfold
  rcases hA with hA | ⟨hfg, hmem⟩
  · exact absurd hA (by simp)
  · obtain rfl : g2 = g := hfst
    exact ⟨hmem, gv, hfg, hB⟩

theorem locate_naive_on_domain (f : ℤ → Option ℚ) (sweep : ℚ) :
    locate_naive f (interpolationDomain sweep) = idxmax f range360 := by
  unfold locate_naive interpolationDomain
  by_cases hsw : 360 ≤ sweep
  · rw [if_pos hsw, if_pos (by rw [bigDomain_length]; norm_num)]
  · rw [if_neg hsw, if_neg (by rw [range360_length]; norm_num)]

/-- C9: whenever the estimator produces a bearing guess, the guess is an
integer degree in [0, 360): both locate paths take `idxmax` over exactly the
integer degrees 0..359 of the relevant curve — even when the prepared series
was circularly extended to -360..719 — and the guess attains the maximum of
that curve there. -/
theorem c9_guess_range (samples : List (ℚ × ℚ)) (sweep : ℚ)
    (fit : ℤ → Option ℚ) (g : ℤ)
    (h : (interpolateModel samples sweep fit).1 = some g) :
    (0 ≤ g ∧ g < 360)
    ∧ ∃ gv, curveOf samples sweep fit g = some gv
        ∧ ∀ i, 0 ≤ i → i < 360 →
            ∀ v, curveOf samples sweep fit i = some v → v ≤ gv := by
  have key : idxmax (curveOf samples sweep fit) range360 = some g := by
    unfold interpolateModel at h
    unfold curveOf
    cases hm : selectMethod samples with
    | naive =>
        rw [hm] at h
        rw [← locate_naive_on_domain (prepForInterpolation samples sweep) sweep]
        exact h
    | slinear =>
        rw [hm] at h
        exact h
    | linear =>
        rw [hm] at h
        exact h
    | pchip =>
        rw [hm] at h
        exact h
  obtain ⟨hmem, gv, hg, hb⟩ := idxmax_spec key
  refine ⟨mem_range360.mp hmem, gv, hg, ?_⟩
  intro i h0 h1 v hv
  exact hb i (mem_range360.mpr ⟨h0, h1⟩) v hv

/-- A concrete fitted curve used by the C9 witness: value 3 at degree 7,
missing elsewhere. -/
def witnessFit : ℤ → Option ℚ := fun i => if i = 7 then some 3 else none

/-- Witness for C9: on one sample (pchip path) with the concrete fitted
curve, the guess is degree 7, inside [0, 360), maximizing the curve. -/
theorem c9_witness :
    ((0:ℤ) ≤ 7 ∧ (7:ℤ) < 360)
    ∧ ∃ gv, curveOf [((10:ℚ), (5:ℚ))] 0 witnessFit 7 = some gv
        ∧ ∀ i, 0 ≤ i → i < 360 →
            ∀ v, curveOf [((10:ℚ), (5:ℚ))] 0 witnessFit i = some v → v ≤ gv :=
  c9_guess_range [((10:ℚ), (5:ℚ))] 0 witnessFit 7 (by decide)

/-- Outcome of the capture worker's startup phase. -/
inductive CaptureStart
  | startedOk
  | startupTimeout
  deriving DecidableEq

/-- The characters of the `"File:"` marker `CaptureThread.run` watches for. -/
def markerChars : List Char := ['F', 'i', 'l', 'e', ':']

/-- Whether the first list of characters begins the second
(`str.startswith(prefix)` on the character lists). -/
def beginsWith : List Char → List Char → Bool
  | [], _ => true
  | _ :: _, [] => false
  | c :: cs, d :: ds => c == d && beginsWith cs ds

/-- `curr_line.startswith("File:")` from `CaptureThread.run`
(src/localizer/capture.py line 423). -/
def lineIsMarker (line : String) : Bool := beginsWith markerChars line.data

/-- The stderr-monitoring loop of `CaptureThread.run`
(src/localizer/capture.py lines 421-429), modelled over the trace of
completed `readline` calls as (line, absolute completion time) pairs: each
iteration reads a line, raises `TimeoutError` if the current time exceeds
the deadline (5 seconds after spawn) — even if that line is the marker —
otherwise leaves the loop and fires the start gate when the line starts
with `"File:"`, and otherwise reads on. `none` models the loop still blocked
inside `readline` after the trace is exhausted. -/
def markerLoop (deadline : ℚ) : List (String × ℚ) → Option CaptureStart
  | [] => none
  | (line, t) :: rest =>
      if deadline < t then some CaptureStart.startupTimeout
      else if lineIsMarker line then some CaptureStart.startedOk
      else markerLoop deadline rest

/-- Whether `self._start_flag.set()` (src/localizer/capture.py line 429) was
reached: only a marker line read within the deadline reaches it. -/
def startGateFired : Option CaptureStart → Bool
  | some CaptureStart.startedOk => true
  | _ => false

/-- Modelled from the spec: the GPS, antenna and channel-hopper workers
(gps.py, antenna.py and wifi.py are not under src/) all block on the shared
start gate `_start_flag` and are released from the barrier only when it
fires. -/
def otherWorkersReleased (r : Option CaptureStart) : Bool := startGateFired r

theorem markerLoop_times_out (deadline : ℚ) :
    ∀ trace : List (String × ℚ),
      (∀ p ∈ trace, lineIsMarker p.1 = true → deadline < p.2) →
      (∃ p ∈ trace, deadline < p.2) →
      markerLoop deadline trace = some CaptureStart.startupTimeout := by
  intro trace
  induction trace with
  | nil =>
      intro _ hlate
      simp at hlate
  | cons p rest ih =>
      intro hmark hlate
      obtain ⟨line, t⟩ := p
      by_cases hlt : deadline < t
      · unfold markerLoop
        rw [if_pos hlt]
      · have hnm : ¬ (lineIsMarker line = true) := by
          intro hm2
          exact hlt (hmark (line, t) (List.mem_cons_self _ _) hm2)
        unfold markerLoop
        rw [if_neg hlt, if_neg hnm]
        refine ih (fun q hq hq2 => hmark q (List.mem_cons_of_mem _ hq) hq2) ?_
        rcases hlate with ⟨q, hq, hqt⟩
        rcases List.mem_cons.mp hq with rfl | hq3
        · exact absurd hqt hlt
        · exact ⟨q, hq3, hqt⟩

/-- C2: if no marker line is read within 5 seconds of spawn (every marker
read completes after the deadline) and some read completes after the
deadline, the capture worker's startup loop raises the timeout error, the
shared start gate is never fired, and no other worker is released from the
barrier. -/
theorem c2_startup_timeout (tStart : ℚ) (trace : List (String × ℚ))
    (hmark : ∀ p ∈ trace, lineIsMarker p.1 = true → tStart + 5 < p.2)
    (hlate : ∃ p ∈ trace, tStart + 5 < p.2) :
    markerLoop (tStart + 5) trace = some CaptureStart.startupTimeout
    ∧ startGateFired (markerLoop (tStart + 5) trace) = false
    ∧ otherWorkersReleased (markerLoop (tStart + 5) trace) = false := by
  have hmain := markerLoop_times_out (tStart + 5) trace hmark hlate
  refine ⟨hmain, ?_, ?_⟩ <;> rw [hmain] <;> rfl

/-- Witness for C2: a single non-marker stderr line read 6 seconds after a
spawn at time 0 yields the startup timeout and an unfired gate. -/
theorem c2_witness :
    markerLoop ((0:ℚ) + 5) [("x", (6:ℚ))] = some CaptureStart.startupTimeout
    ∧ startGateFired (markerLoop ((0:ℚ) + 5) [("x", (6:ℚ))]) = false
    ∧ otherWorkersReleased (markerLoop ((0:ℚ) + 5) [("x", (6:ℚ))]) = false :=
  c2_startup_timeout 0 [("x", 6)]
    (by
      intro p hp hm
      rw [List.mem_singleton] at hp
      subst hp
      norm_num)
    ⟨("x", 6), List.mem_singleton.mpr rfl, by norm_num⟩

/-- The three possible outcomes of collecting one worker's result. -/
inductive WaitOutcome
  | gotResult
  | workerTimeout
  | blockedForever
  deriving DecidableEq

/-- Modelled from the Python standard library contract of
`queue.Queue.get`: with an item posted the call returns it; with a timeout
and no item it raises `queue.Empty` after the timeout (a detectable
worker-timeout condition); with `timeout=None` — the default — and no item
it blocks until one arrives, i.e. forever if the worker never posts. -/
def queueGet (timeout : Option ℚ) (workerPosts : Bool) : WaitOutcome :=
  if workerPosts then WaitOutcome.gotResult
  else
    match timeout with
    | some _ => WaitOutcome.workerTimeout
    | none => WaitOutcome.blockedForever

/-- The timeout the coordinator passes to each result-queue `get()` in
`capture` (src/localizer/capture.py lines 151-163): none — all three calls
are bare `queue.get()` with no timeout argument. -/
def coordinatorResultTimeout : Option ℚ := none

/-- C7 evaluation at the failing input: with the coordinator's bare
`queue.get()` (no timeout), a worker that never posts its result leaves the
coordinator blocked forever; no bounded wait and no reported worker-timeout
exists, while a posted result is returned normally. -/
theorem c7_unbounded_result_wait :
    queueGet coordinatorResultTimeout false = WaitOutcome.blockedForever
    ∧ queueGet coordinatorResultTimeout false ≠ WaitOutcome.workerTimeout
    ∧ queueGet coordinatorResultTimeout true = WaitOutcome.gotResult := by
  refine ⟨rfl, by decide, rfl⟩
